/-
Verification of the markdown splitter (split.py) of the sol101 repository.

The source is embedded shallowly: Python strings become `List Char`
(Python indexes strings by code point, as a list of characters does),
Python lists become Lean lists, the mutable `used_names` set is threaded
explicitly, and filesystem writes are collected into pure return values.
Character classes (`\w`, `\s`, `.lower()`, `.upper()`) are modelled with
Lean's ASCII character predicates; the source corpus names and the claim
inputs are ASCII, where the two agree.

The mistune markdown AST used by `parse_markdown` is an external library;
its heading nodes (level, extracted text) are taken as an explicit input
parameter wherever the embedded parser needs them.
-/
import Mathlib

set_option maxRecDepth 200000

/-- A line of a document: Python string as a list of characters. -/
abbrev Line := List Char

/-- Model of Python's `\w` character class (word character), restricted to
the ASCII range exposed by `Char.isAlphanum`: letters, digits, underscore. -/
def pyIsWord (c : Char) : Bool := c.isAlphanum || c == '_'

/-- Model of Python's `\s` character class and of `str.strip()`'s notion of
whitespace, via Lean's `Char.isWhitespace`. -/
def pyIsSpace (c : Char) : Bool := c.isWhitespace

/-- `str.strip()`: drop whitespace from both ends. -/
def pyStrip (l : List Char) : List Char :=
  ((l.dropWhile pyIsSpace).reverse.dropWhile pyIsSpace).reverse

/-- `startswith`: `listStartsWith p l` holds when `p` is an initial segment of `l`. -/
def listStartsWith : List Char → List Char → Bool
  | [], _ => true
  | _ :: _, [] => false
  | p :: ps, c :: cs => p == c && listStartsWith ps cs

/-- Python's `in` on strings: `containsSub needle hay` is the substring test. -/
def containsSub (needle : List Char) : List Char → Bool
  | [] => needle.isEmpty
  | c :: rest => listStartsWith needle (c :: rest) || containsSub needle rest

/-- The regex `re.match(r'^\w*?(\d+\w*)\W', heading_text)` of
`heading_to_name`, rule 1.  The lazy `\w*?` tries ever longer all-word-char
stems; at the first digit position whose maximal word-character run is
followed by a (necessarily non-word) character, the run is the captured
group.  Returns the captured group. -/
def extractId : List Char → Option (List Char)
  | [] => none
  | c :: rest =>
    if c.isDigit then
      match (c :: rest).span pyIsWord with
      | (run, d :: _) =>
        -- span is maximal, so `d` is not a word character and `\W` matches
        if pyIsWord d then none else some run
      | (_, []) =>
        -- the run reaches the end of the string: `\W` cannot match here;
        -- the lazy stem advances over `c` (a digit is a word character)
        extractId rest
    else if pyIsWord c then extractId rest
    else none

/-- `re.sub(r'[^\w\s-]', '', text)`: keep word characters, whitespace, hyphens. -/
def slugKeep (l : List Char) : List Char :=
  l.filter (fun c => pyIsWord c || pyIsSpace c || c == '-')

/-- `re.sub(r'[-\s]+', '-', text)`: collapse every run of hyphens/whitespace
to a single hyphen.  The boolean flag records whether the previous character
belonged to such a run. -/
def collapseRuns : List Char → Bool → List Char
  | [], _ => []
  | c :: rest, prevSep =>
    if pyIsSpace c || c == '-' then
      if prevSep then collapseRuns rest true else '-' :: collapseRuns rest true
    else c :: collapseRuns rest false

/-- `str.strip('-')`: drop hyphens from both ends. -/
def stripDashes (l : List Char) : List Char :=
  ((l.dropWhile (· == '-')).reverse.dropWhile (· == '-')).reverse

/-- Rule 2 of `heading_to_name`: slugify (sub, sub, strip, lower). -/
def slugify (t : List Char) : List Char :=
  (stripDashes (collapseRuns (slugKeep t) false)).map Char.toLower

/-- The base name computed by `heading_to_name` before deduplication:
rule 1 (extracted id, lowercased) else rule 2 (slug, `'unnamed'` fallback). -/
def baseName (t : List Char) : List Char :=
  match extractId t with
  | some g => g.map Char.toLower
  | none =>
    let s := slugify t
    if s = [] then ('u' :: 'n' :: 'n' :: 'a' :: 'm' :: 'e' :: 'd' :: []) else s

/-- Decimal digit character, as printed by a Python f-string. -/
def decDigit (d : Nat) : Char := Char.ofNat (48 + d)

/-- Decimal rendering of a natural number (the f-string `f"{counter}"`),
written with structural fuel so that it reduces definitionally. -/
def natDecimalAux : Nat → Nat → List Char
  | 0, _ => []
  | f + 1, n =>
    if n < 10 then [decDigit n]
    else natDecimalAux f (n / 10) ++ [decDigit (n % 10)]

/-- Decimal rendering of a natural number. -/
def natDecimal (n : Nat) : List Char := natDecimalAux (n + 1) n

/-- The candidate `f"{base_name}-{counter}"` of `heading_to_name`, rule 3. -/
def suffixCand (base : List Char) (counter : Nat) : List Char :=
  base ++ '-' :: natDecimal counter

/-- The `while f"{base_name}-{counter}" in used_names: counter += 1` loop of
`heading_to_name`.  The loop always terminates because the used set is
finite and the candidates are pairwise distinct; the structural fuel
`used.length + 1` is proved sufficient below. -/
def findSuffix (base : List Char) (used : List (List Char)) : Nat → Nat → List Char
  | 0, c => suffixCand base c
  | f + 1, c =>
    if suffixCand base c ∈ used then findSuffix base used f (c + 1)
    else suffixCand base c

/-- `heading_to_name(heading_text, used_names)`: returns the allocated name
and the grown used set (the Python set mutation made explicit). -/
def heading_to_name (t : List Char) (used : List (List Char)) :
    List Char × List (List Char) :=
  let base := baseName t
  if base ∈ used then
    let fn := findSuffix base used (used.length + 1) 1
    (fn, fn :: used)
  else (base, base :: used)

/-- One allocation appended to an (outputs, used set) accumulator. -/
def allocStep (acc : List (List Char) × List (List Char)) (t : List Char) :
    List (List Char) × List (List Char) :=
  (acc.1 ++ [(heading_to_name t acc.2).1], (heading_to_name t acc.2).2)

/-- One document pass of the Name Allocator: successive headings processed
against one shared used set, starting empty. -/
def processNames (ts : List (List Char)) : List (List Char) :=
  (ts.foldl allocStep ([], [])).1

/-- Decimal decoding, inverse of `natDecimal` on its range. -/
def decodeDec (l : List Char) : Nat :=
  l.foldl (fun a c => a * 10 + (c.toNat - 48)) 0

/-- Python's `content.split('\n')`: always returns at least one piece,
the empty string splits to one empty piece. -/
def splitNl : List Char → List (List Char)
  | [] => [[]]
  | c :: rest =>
    match splitNl rest with
    | [] => [[c]]
    | r :: rs => if c == '\n' then [] :: r :: rs else (c :: r) :: rs

/-- Python's `'\n'.join(lines)`: inverse of `splitNl`. -/
def joinLines : List (List Char) → List Char
  | [] => []
  | [l] => l
  | l :: r :: rs => l ++ '\n' :: joinLines (r :: rs)

/-- The raw-line heading scan `re.match(r'^(#{1,2})\s*(.+)$', line)` of
`parse_markdown`, first pass.  Returns the heading level (`len(match.group(1))`)
when the line matches.  The greedy hash group takes `min k 2` of the `k`
leading hashes; when the line is exactly `'#'` or `'##'` the engine
backtracks (`'#'` fails, `'##'` matches at level 1 with text `'#'`). -/
def rawHeadingLevel (line : List Char) : Option Nat :=
  let k := (line.takeWhile (· == '#')).length
  if k = 0 then none
  else if min k 2 < line.length then some (min k 2)
  else if k = 2 then some 1
  else none

/-- A raw heading candidate of `heading_positions`: line index, level, line. -/
structure RawPos where
  line : Nat
  level : Nat
  content : List Char
deriving DecidableEq

/-- The `heading_positions` map of `parse_markdown`, in ascending line
order (Python dict built over ascending `i` preserves insertion order). -/
def headingPositions (lines : List (List Char)) : List RawPos :=
  lines.enum.filterMap (fun p =>
    (rawHeadingLevel p.2).map (fun lv => RawPos.mk p.1 lv p.2))

/-- The candidate test of the reconciliation loop: the raw line's trailing
text (`line_content[level:].strip()`) contains the AST heading text, or
starts with its first 20 characters (the whole text when shorter). -/
def lineMatches (lv : Nat) (headingText : List Char) (line : List Char) : Bool :=
  let lineText := pyStrip (line.drop lv)
  containsSub headingText lineText ||
    listStartsWith
      (if 20 ≤ headingText.length then headingText.take 20 else headingText)
      lineText

/-- One comparison of the `best_match` scan: keep the smaller matching
line number (`if best_match is None or line_num < best_match`). -/
def bmStep (lv : Nat) (headingText : List Char) (acc : Option Nat) (p : RawPos) :
    Option Nat :=
  if p.level = lv ∧ lineMatches lv headingText p.content then
    match acc with
    | none => some p.line
    | some b => if p.line < b then some p.line else some b
  else acc

/-- The `best_match` minimisation of `parse_markdown`: the smallest line
number among unclaimed candidates of the same level whose text matches. -/
def bestMatch (lv : Nat) (headingText : List Char) (ps : List RawPos) : Option Nat :=
  ps.foldl (bmStep lv headingText) none

/-- A matched heading: level, AST-extracted text, matched start line. -/
structure Hd where
  level : Nat
  text : List Char
  startLine : Nat
deriving DecidableEq

/-- The second pass of `parse_markdown`: match AST heading nodes (level,
extracted text), in document order, to unclaimed raw lines; a matched line
is deleted from the candidate map; an unmatched heading is dropped. -/
def matchHeadings (ast : List (Nat × List Char)) (ps : List RawPos) : List Hd :=
  match ast with
  | [] => []
  | (lv, ht) :: rest =>
    if lv ≤ 2 then
      match bestMatch lv ht ps with
      | some l => Hd.mk lv ht l :: matchHeadings rest (ps.filter (fun p => p.line ≠ l))
      | none => matchHeadings rest ps
    else matchHeadings rest ps

/-- A section record of `parse_markdown`: `(level, heading_text,
content_lines_start, content_lines_end)` with `endLine` exclusive. -/
structure Sec where
  level : Nat
  text : List Char
  startLine : Nat
  endLine : Nat
deriving DecidableEq

/-- The section-end scan of `parse_markdown`: the start of the first
following heading whose level is `≤` the current one, else `total`. -/
def sectionEnd (lv : Nat) (rest : List Hd) (total : Nat) : Nat :=
  match rest with
  | [] => total
  | h :: r => if h.level ≤ lv then h.startLine else sectionEnd lv r total

/-- The section-building loop of `parse_markdown`. -/
def buildSections (hs : List Hd) (total : Nat) : List Sec :=
  match hs with
  | [] => []
  | h :: rest =>
    Sec.mk h.level h.text h.startLine (sectionEnd h.level rest total) ::
      buildSections rest total

/-- `parse_markdown(content)`: the mistune AST heading nodes are supplied
explicitly (external library); `lines` is `content.split('\n')`. -/
def parse_markdown (ast : List (Nat × List Char)) (lines : List (List Char)) :
    List Sec :=
  buildSections (matchHeadings ast (headingPositions lines)) lines.length

/-- Python `lines[s:e]`. -/
def extractLines (lines : List (List Char)) (s e : Nat) : List (List Char) :=
  (lines.drop s).take (e - s)

/-- The `## → #` rewrite of `create_file_structure` for level-2 files:
the first line starting with `'## '` loses one leading hash (`line[1:]`);
all other lines are unchanged. -/
def rewriteFirstL2 : List (List Char) → List (List Char)
  | [] => []
  | l :: rest =>
    if listStartsWith ('#' :: '#' :: ' ' :: []) l then l.drop 1 :: rest
    else l :: rewriteFirstL2 rest

/-- A sidebar leaf `{text, link}` accumulated for a split level-2 file. -/
structure NavItem where
  text : List Char
  link : List Char
deriving DecidableEq

/-- A sidebar section `{text, link, items}`; `link = none` models Python
`None` (a long or implicit level-1 section with no file of its own). -/
structure NavEntry where
  text : List Char
  link : Option (List Char)
  items : List NavItem
deriving DecidableEq

/-- The iteration state of `create_file_structure`: the used-name set, the
current level-1 heading (`None` before the first one), its accumulated
level-2 items, its link, plus the files written so far (slug, content
lines) and the flushed sidebar entries. -/
structure SplitSt where
  used : List (List Char)
  curName : Option (List Char)
  curItems : List NavItem
  curLink : Option (List Char)
  files : List (List Char × List (List Char))
  nav : List NavEntry
deriving DecidableEq

/-- The link `f'/{name}/{file_name}'`. -/
def mkLink (docName slug : List Char) : List Char :=
  '/' :: docName ++ '/' :: slug

/-- The flush `if current_l1_name: sidebar_structure.append(...)`; Python
truthiness makes both `None` and the empty string skip the append. -/
def flushNav (st : SplitSt) : List NavEntry :=
  match st.curName with
  | none => st.nav
  | some t => if t = [] then st.nav else st.nav ++ [NavEntry.mk t st.curLink st.curItems]

/-- The `TOO_LONG_THRESHOLD = 500` split policy constant. -/
def TOO_LONG_THRESHOLD : Nat := 500

/-- One iteration of the section loop of `create_file_structure`. -/
def splitStep (docName : List Char) (lines : List (List Char))
    (st : SplitSt) (sec : Sec) : SplitSt :=
  let content := extractLines lines sec.startLine sec.endLine
  let cnt := sec.endLine - sec.startLine
  if sec.level = 1 then
    let nav2 := flushNav st
    if cnt > TOO_LONG_THRESHOLD then
      SplitSt.mk st.used (some sec.text) [] none st.files nav2
    else
      let (fn, used2) := heading_to_name sec.text st.used
      SplitSt.mk used2 (some sec.text) [] (some (mkLink docName fn))
        (st.files ++ [(fn, content)]) nav2
  else if sec.level = 2 then
    let st1 :=
      match st.curName with
      | none => SplitSt.mk st.used (some ('C' :: 'o' :: 'n' :: 't' :: 'e' :: 'n' :: 't' :: []))
          [] none st.files st.nav
      | some _ => st
    match st1.curLink with
    | none =>
      let (fn, used2) := heading_to_name sec.text st1.used
      SplitSt.mk used2 st1.curName
        (st1.curItems ++ [NavItem.mk sec.text (mkLink docName fn)]) st1.curLink
        (st1.files ++ [(fn, rewriteFirstL2 content)]) st1.nav
    | some _ => st1
  else st

/-- The empty starting state of `create_file_structure`. -/
def initSplitSt : SplitSt := SplitSt.mk [] none [] none [] []

/-- `create_file_structure(name, sections)` made pure: the original file's
lines are passed in; returns the ordered written files (slug, content
lines; the file on disk is `docs/{name}/{slug}.md` holding
`joinLines content`) and the sidebar structure. -/
def create_file_structure (docName : List Char) (lines : List (List Char))
    (sections : List Sec) : List (List Char × List (List Char)) × List NavEntry :=
  let st := sections.foldl (splitStep docName lines) initSplitSt
  (st.files, flushNav st)

/-- The on-disk path of a written content file. -/
def filePathOf (docName slug : List Char) : List Char :=
  "docs/".data ++ docName ++ '/' :: slug ++ ".md".data

/-- The single-quote character, kept out of string literals. -/
def qc : Char := Char.ofNat 39

/-- `text.replace("'", "\\'")` of `generate_sidebar_config`. -/
def escQuote : List Char → List Char
  | [] => []
  | c :: rest =>
    if c == qc then '\\' :: qc :: escQuote rest else c :: escQuote rest

/-- One `{ text: '…', link: '…' },` sub-item line of `generate_sidebar_config`. -/
def navItemText (it : NavItem) : List Char :=
  "                    \x7b text: ".data ++ qc :: escQuote it.text ++
    qc :: ", link: ".data ++ qc :: it.link ++ qc :: " \x7d,\n".data

/-- One section object of `generate_sidebar_config`: text, optional link
(Python truthiness: `None` and the empty string are both skipped),
`collapsed`/`items` only when the item list is non-empty. -/
def navEntryText (e : NavEntry) : List Char :=
  "            \x7b\n".data ++
  "                text: ".data ++ qc :: escQuote e.text ++ qc :: ",\n".data ++
  (match e.link with
   | some l => if l = [] then [] else
       "                link: ".data ++ qc :: l ++ qc :: ",\n".data
   | none => []) ++
  (if e.items = [] then [] else
    "                collapsed: true,\n".data ++
    "                items: [\n".data ++
    (e.items.map navItemText).flatten ++
    "                ]\n".data) ++
  "            \x7d,\n".data

/-- The per-document `'/{name}': { items: [...] }` block. -/
def docSidebarText (p : List Char × List NavEntry) : List Char :=
  qc :: '/' :: p.1 ++ qc :: ": \x7b\n".data ++
  "        items: [\n".data ++
  (p.2.map navEntryText).flatten ++
  "        ]\n".data ++
  "    \x7d".data

/-- `generate_sidebar_config(structures)`: the blocks joined with
`",\n        "` in insertion order. -/
def generate_sidebar_config (structures : List (List Char × List NavEntry)) :
    List Char :=
  List.intercalate ",\n        ".data (structures.map docSidebarText)

/-- Python `str.replace(pat, repl)` (all non-overlapping occurrences, left
to right), with structural fuel `l.length`; the splitter only uses a fixed
non-empty pattern, so the empty-pattern case keeps the string unchanged. -/
def replaceAllAux (pat repl : List Char) : Nat → List Char → List Char
  | 0, l => l
  | _ + 1, [] => []
  | f + 1, c :: rest =>
    if pat ≠ [] ∧ listStartsWith pat (c :: rest) then
      repl ++ replaceAllAux pat repl f ((c :: rest).drop pat.length)
    else c :: replaceAllAux pat repl f rest

/-- Python `l.replace(pat, repl)`. -/
def replaceAll (l pat repl : List Char) : List Char :=
  replaceAllAux pat repl l.length l

/-- The `'// template: sidebar'` placeholder of `config.templ.mjs`. -/
def sidebarMarker : List Char := "// template: sidebar".data

/-- `update_config_file(sidebar_config)` made pure: the written
`docs/.vitepress/config.mjs` content, from the template's content. -/
def update_config_file (template sidebar : List Char) : List Char :=
  replaceAll template sidebarMarker sidebar

/-- The filesystem slice the splitter touches: the per-document output
directories `docs/{name}/` (each a list of (filename, file bytes)) and the
generated `docs/.vitepress/config.mjs`. -/
structure World where
  docs : List Char → Option (List (List Char × List Char))
  config : Option (List Char)

/-- The name validation `re.match(r'^[a-zA-Z0-9_-]+$', name)` of `split`. -/
def validName (n : List Char) : Bool :=
  !n.isEmpty && n.all (fun c => c.isAlphanum || c == '_' || c == '-')

/-- The guide-page title lookup of `split`. -/
def docTitle (n : List Char) : List Char :=
  if n = "oj".data then "OpenJudge题库".data
  else if n = "cf".data then "Codeforces题库".data
  else n.map Char.toUpper ++ "题库".data

/-- The guide page `index.md` content written by `split`. -/
def indexContent (n : List Char) : List Char :=
  "# ".data ++ docTitle n ++ "\n\n欢迎来到".data ++ docTitle n ++
    "，点击左边目录选择题目。\n".data

/-- The fresh contents of `docs/{name}/` after processing one document:
the split content files plus the guide page.  `ast` is the external
mistune parse, mapping document text to its heading nodes. -/
def freshDir (ast : List Char → List (Nat × List Char)) (docName content : List Char) :
    List (List Char × List Char) :=
  let lines := splitNl content
  let files := (create_file_structure docName lines (parse_markdown (ast content) lines)).1
  files.map (fun f => (f.1 ++ ".md".data, joinLines f.2)) ++
    [("index.md".data, indexContent docName)]

/-- The sidebar structure of one processed document. -/
def docNav (ast : List Char → List (Nat × List Char)) (docName content : List Char) :
    List NavEntry :=
  let lines := splitNl content
  (create_file_structure docName lines (parse_markdown (ast content) lines)).2

/-- `all_structures[name] = structure`: Python dict assignment keeps the
first-insertion position of an existing key. -/
def updAssoc (l : List (List Char × List NavEntry)) (k : List Char)
    (v : List NavEntry) : List (List Char × List NavEntry) :=
  if l.any (fun p => p.1 = k) then
    l.map (fun p => if p.1 = k then (k, v) else p)
  else l ++ [(k, v)]

/-- Pointwise update of the `docs/` directory map. -/
def updDocs (d : List Char → Option (List (List Char × List Char)))
    (k : List Char) (v : List (List Char × List Char)) :
    List Char → Option (List (List Char × List Char)) :=
  fun n => if n = k then some v else d n

/-- One loop iteration of `split` over a requested document name: skip on
invalid name, skip on missing source, otherwise rebuild `docs/{name}/`
from scratch and record the document's sidebar structure.  `env` maps a
document name to the content of `original/{name}.md` (`none` = absent). -/
def splitStepDoc (env : List Char → Option (List Char))
    (ast : List Char → List (Nat × List Char))
    (acc : List (List Char × List NavEntry) × World) (n : List Char) :
    List (List Char × List NavEntry) × World :=
  if validName n then
    match env n with
    | none => acc
    | some content =>
      (updAssoc acc.1 n (docNav ast n content),
       World.mk (updDocs acc.2.docs n (freshDir ast n content)) acc.2.config)
  else acc

/-- `split(names)`: process every requested document, then (only when at
least one document was processed) regenerate the sidebar configuration
from the aggregated structures and write `config.mjs`. -/
def split (env : List Char → Option (List Char))
    (ast : List Char → List (Nat × List Char)) (template : List Char)
    (names : List (List Char)) (w : World) : World :=
  let r := names.foldl (splitStepDoc env ast) ([], w)
  if r.1.isEmpty then r.2
  else World.mk r.2.docs
    (some (update_config_file template (generate_sidebar_config r.1)))

/-- Hypothesis shape for round-trip statements: the spans of the listed
sections tile `[a, e)` contiguously, in order. -/
def spansChained : List Sec → Nat → Nat → Prop
  | [], a, e => a = e
  | sec :: rest, a, e =>
    sec.startLine = a ∧ sec.startLine ≤ sec.endLine ∧ spansChained rest sec.endLine e

/-- The ten-line document of the short-section example: one level-1
section `Basics`, no level-2 children. -/
def ojLines : List (List Char) :=
  ["# Basics".data, "line 1".data, "line 2".data, "line 3".data, "line 4".data,
   "line 5".data, "line 6".data, "line 7".data, "line 8".data, "line 9".data]

/-- A document for the long-section round-trip analysis: a level-1 heading,
500 body lines (making the section 503 lines long, over the threshold),
then one level-2 child of two lines. -/
def longDocLines : List (List Char) :=
  "# A".data :: List.replicate 500 "x".data ++ ["## B".data, "y".data]

/-- The sections of `longDocLines` as `parse_markdown` computes them:
the level-1 section spans the whole document, its level-2 child the last
two lines. -/
def longDocSecs : List Sec :=
  [Sec.mk 1 ['A'] 0 503, Sec.mk 2 ['B'] 501 503]

/-- A two-line document with no headings at all. -/
def noHeadLines : List (List Char) := ["hello".data, "world".data]

/-- The files the splitter writes for a run of level-2 children of a long
parent: one file per child, in document order, each holding the child's
span with the first `'## '` line rewritten; the used-name set threads
through the allocations. -/
def l2FileList (lines : List (List Char)) (used : List (List Char)) :
    List Sec → List (List Char × List (List Char))
  | [] => []
  | sec :: rest =>
    ((heading_to_name sec.text used).1,
      rewriteFirstL2 (extractLines lines sec.startLine sec.endLine)) ::
      l2FileList lines (heading_to_name sec.text used).2 rest

/-- Source text for the orchestrator examples: the `Basics` document. -/
def wContent : List Char := joinLines ojLines

/-- An environment with exactly one document, named `ok`. -/
def wEnv : List Char → Option (List Char) :=
  fun n => if n = "ok".data then some wContent else none

/-- A fixed external parse for the orchestrator examples. -/
def wAst : List Char → List (Nat × List Char) := fun _ => [(1, "Basics".data)]

/-- An initially empty filesystem slice. -/
def w0 : World := World.mk (fun _ => none) none

theorem decDigit_toNat (d : Nat) (h : d < 10) : (decDigit d).toNat = 48 + d := by
  interval_cases d <;> decide

theorem decodeDec_append (l : List Char) (c : Char) :
    decodeDec (l ++ [c]) = decodeDec l * 10 + (c.toNat - 48) := by
  simp [decodeDec, List.foldl_append]

theorem decodeDec_natDecimalAux (f n : Nat) (h : n < f) :
    decodeDec (natDecimalAux f n) = n := by
  induction f generalizing n with
  | zero => omega
  | succ f ih =>
    by_cases h10 : n < 10
    · simp [natDecimalAux, h10, decodeDec, decDigit_toNat n h10]
    · have hdiv : n / 10 < f := by omega
      simp only [natDecimalAux, if_neg h10]
      rw [decodeDec_append, ih _ hdiv, decDigit_toNat _ (Nat.mod_lt n (by omega))]
      omega

theorem decodeDec_natDecimal (n : Nat) : decodeDec (natDecimal n) = n :=
  decodeDec_natDecimalAux (n + 1) n (Nat.lt_succ_self n)

theorem natDecimal_injective : Function.Injective natDecimal := by
  intro a b h
  have := decodeDec_natDecimal a
  rw [h, decodeDec_natDecimal] at this
  omega

theorem suffixCand_injective (base : List Char) :
    Function.Injective (suffixCand base) := by
  intro a b h
  have h2 : natDecimal a = natDecimal b := by
    have := List.append_cancel_left h
    exact List.cons_injective this
  exact natDecimal_injective h2

/-- Pigeonhole: among `used.length + 1` successive suffix candidates at
least one is not in `used`. -/
theorem exists_free_cand (base : List Char) (used : List (List Char)) (c : Nat) :
    ∃ k < used.length + 1, suffixCand base (c + k) ∉ used := by
  by_contra hall
  push_neg at hall
  have hsub : (Finset.range (used.length + 1)).image (fun k => suffixCand base (c + k)) ⊆
      used.toFinset := by
    intro x hx
    simp only [Finset.mem_image, Finset.mem_range] at hx
    obtain ⟨k, hk, rfl⟩ := hx
    exact List.mem_toFinset.2 (hall k hk)
  have hcard : used.length + 1 ≤ used.toFinset.card := by
    have h1 : ((Finset.range (used.length + 1)).image
        (fun k => suffixCand base (c + k))).card = used.length + 1 := by
      rw [Finset.card_image_of_injective _ (fun a b hab => by
        have := suffixCand_injective base hab; omega)]
      simp
    calc used.length + 1 = _ := h1.symm
      _ ≤ used.toFinset.card := Finset.card_le_card hsub
  have := used.toFinset_card_le
  omega

theorem findSuffix_not_mem (base : List Char) (used : List (List Char)) :
    ∀ fuel c, (∃ k < fuel, suffixCand base (c + k) ∉ used) →
    findSuffix base used fuel c ∉ used := by
  intro fuel
  induction fuel with
  | zero => intro c ⟨k, hk, _⟩; omega
  | succ f ih =>
    intro c ⟨k, hk, hfree⟩
    have hstep : findSuffix base used (f + 1) c =
        if suffixCand base c ∈ used then findSuffix base used f (c + 1)
        else suffixCand base c := rfl
    rw [hstep]
    by_cases hmem : suffixCand base c ∈ used
    · rw [if_pos hmem]
      rcases Nat.eq_zero_or_pos k with rfl | hkpos
      · simp only [Nat.add_zero] at hfree; exact absurd hmem hfree
      · refine ih _ ⟨k - 1, by omega, ?_⟩
        have heq : c + 1 + (k - 1) = c + k := by omega
        rw [heq]
        exact hfree
    · rw [if_neg hmem]; exact hmem

/-- The allocator's core freshness property: the returned name is not in
the incoming used set, and the used set grows by exactly that name. -/
theorem heading_to_name_fresh (t : List Char) (used : List (List Char)) :
    (heading_to_name t used).1 ∉ used ∧
    (heading_to_name t used).2 = (heading_to_name t used).1 :: used := by
  unfold heading_to_name
  by_cases hmem : baseName t ∈ used
  · simp only [if_pos hmem]
    exact ⟨findSuffix_not_mem _ _ _ _ (exists_free_cand _ used 1), trivial⟩
  · simp only [if_neg hmem]
    exact ⟨hmem, trivial⟩

/-- The invariant of one allocator pass: outputs stay duplicate-free and
registered in the used set. -/
theorem processNames_aux (ts : List (List Char)) :
    ∀ out used, out.Nodup → (∀ n ∈ out, n ∈ used) →
    ((ts.foldl allocStep (out, used)).1).Nodup := by
  induction ts with
  | nil => intro out used h _; exact h
  | cons t ts ih =>
    intro out used hnd hsub
    have hfresh := heading_to_name_fresh t used
    simp only [List.foldl_cons]
    have hstep : allocStep (out, used) t =
        (out ++ [(heading_to_name t used).1], (heading_to_name t used).1 :: used) := by
      simp only [allocStep]
      rw [hfresh.2]
    rw [hstep]
    apply ih
    · refine List.nodup_append.2 ⟨hnd, List.nodup_singleton _, ?_⟩
      intro a ha hb
      simp only [List.mem_singleton] at hb
      subst hb
      exact hfresh.1 (hsub _ ha)
    · intro n hn
      rcases List.mem_append.1 hn with h | h
      · exact List.mem_cons_of_mem _ (hsub n h)
      · simp only [List.mem_singleton] at h
        subst h
        exact List.mem_cons_self _ _

/-- C4: within one document pass over a shared used-name set the Name
Allocator never returns the same name twice (a taken candidate gets the
first free `-1`, `-2`, … suffix), and on the inputs
`["1A. Theatre Square", "1A. Other", "???"]` it returns exactly
`["1a", "1a-1", "unnamed"]`. -/
theorem C4_name_allocator_unique :
    (∀ ts : List (List Char), (processNames ts).Nodup) ∧
    processNames
        ["1A. Theatre Square".data, "1A. Other".data, "???".data] =
      ["1a".data, "1a-1".data, "unnamed".data] := by
  constructor
  · intro ts
    exact processNames_aux ts [] [] List.nodup_nil (by intro n hn; cases hn)
  · decide

/-- C3: the split decision of `create_file_structure` is taken from the
level-1 section's own line count: a 500-line section takes the short
branch (its file is written, its link set, nothing queued for splitting),
a 501-line one takes the long branch (no file, `link = None`). -/
theorem C3_threshold_boundary (docName : List Char) (lines : List (List Char))
    (st : SplitSt) (t : List Char) (s : Nat) :
    splitStep docName lines st (Sec.mk 1 t s (s + 500)) =
      SplitSt.mk (heading_to_name t st.used).2 (some t) []
        (some (mkLink docName (heading_to_name t st.used).1))
        (st.files ++ [((heading_to_name t st.used).1,
          extractLines lines s (s + 500))])
        (flushNav st) ∧
    splitStep docName lines st (Sec.mk 1 t s (s + 501)) =
      SplitSt.mk st.used (some t) [] none st.files (flushNav st) := by
  have h1 : s + 500 - s = 500 := by omega
  have h2 : s + 501 - s = 501 := by omega
  constructor
  · simp [splitStep, TOO_LONG_THRESHOLD, h1]
  · simp [splitStep, TOO_LONG_THRESHOLD, h2]

/-- A level-2 section under a short (linked) level-1 parent changes
nothing: no file, no sidebar item. -/
theorem splitStep_l2_skip (docName : List Char) (lines : List (List Char))
    (st : SplitSt) (sec : Sec) (x l : List Char)
    (hn : st.curName = some x) (hl : st.curLink = some l) (h2 : sec.level = 2) :
    splitStep docName lines st sec = st := by
  have hne : sec.level ≠ 1 := by omega
  simp only [splitStep, if_neg hne, if_pos h2, hn, hl]

/-- Folding level-2 sections under a short parent is the identity. -/
theorem foldl_l2_skip (docName : List Char) (lines : List (List Char))
    (l2s : List Sec) :
    ∀ st x l, st.curName = some x → st.curLink = some l →
    (∀ sec ∈ l2s, sec.level = 2) →
    l2s.foldl (splitStep docName lines) st = st := by
  induction l2s with
  | nil => intro st x l _ _ _; rfl
  | cons sec rest ih =>
    intro st x l hn hl hall
    rw [List.foldl_cons,
      splitStep_l2_skip docName lines st sec x l hn hl (hall sec (by simp))]
    exact ih st x l hn hl (fun s hs => hall s (by simp [hs]))

/-- C2 amended: a short level-1 section (count `≤` threshold) yields
exactly one file holding the section's full original lines, and its
level-2 children yield no files and no items; when the section's heading
text is non-empty its sidebar entry carries the link to that file and an
empty item list, but a short section with empty extracted heading text —
while still getting its single file — is dropped from the sidebar
entirely (the flush `if current_l1_name:` is falsy on the empty string).
In particular document `oj` with the single short section `Basics` of
ten lines yields `docs/oj/basics.md` holding those lines and the entry
`{text: Basics, link: /oj/basics, items: []}`. -/
theorem C2_short_section (docName : List Char) (lines : List (List Char))
    (st : SplitSt) (t : List Char) (s e : Nat) (l2s : List Sec)
    (hshort : e - s ≤ TOO_LONG_THRESHOLD) (hl2 : ∀ sec ∈ l2s, sec.level = 2) :
    (Sec.mk 1 t s e :: l2s).foldl (splitStep docName lines) st =
      SplitSt.mk (heading_to_name t st.used).2 (some t) []
        (some (mkLink docName (heading_to_name t st.used).1))
        (st.files ++ [((heading_to_name t st.used).1, extractLines lines s e)])
        (flushNav st) ∧
    (t ≠ [] →
      flushNav ((Sec.mk 1 t s e :: l2s).foldl (splitStep docName lines) st) =
        flushNav st ++
          [NavEntry.mk t (some (mkLink docName (heading_to_name t st.used).1)) []]) ∧
    (t = [] →
      flushNav ((Sec.mk 1 t s e :: l2s).foldl (splitStep docName lines) st) =
        flushNav st) ∧
    (parse_markdown [(1, "Basics".data)] ojLines = [Sec.mk 1 "Basics".data 0 10] ∧
     create_file_structure "oj".data ojLines [Sec.mk 1 "Basics".data 0 10] =
       ([("basics".data, ojLines)],
        [NavEntry.mk "Basics".data (some "/oj/basics".data) []]) ∧
     filePathOf "oj".data "basics".data = "docs/oj/basics.md".data) := by
  have hstep : (Sec.mk 1 t s e :: l2s).foldl (splitStep docName lines) st =
      SplitSt.mk (heading_to_name t st.used).2 (some t) []
        (some (mkLink docName (heading_to_name t st.used).1))
        (st.files ++ [((heading_to_name t st.used).1, extractLines lines s e)])
        (flushNav st) := by
    rw [List.foldl_cons]
    have h1 : splitStep docName lines st (Sec.mk 1 t s e) =
        SplitSt.mk (heading_to_name t st.used).2 (some t) []
          (some (mkLink docName (heading_to_name t st.used).1))
          (st.files ++ [((heading_to_name t st.used).1, extractLines lines s e)])
          (flushNav st) := by
      have hc : ¬ (e - s > TOO_LONG_THRESHOLD) := by omega
      simp [splitStep, hc]
    rw [h1]
    exact foldl_l2_skip docName lines l2s _ t (mkLink docName (heading_to_name t st.used).1)
      rfl rfl hl2
  refine ⟨hstep, ?_, ?_, by decide, by decide, by decide⟩
  · intro ht
    rw [hstep]
    simp [flushNav, ht]
  · intro ht
    rw [hstep]
    subst ht
    simp [flushNav]

/-- With no raw heading candidates, no AST heading can be matched. -/
theorem matchHeadings_nil_ps (ast : List (Nat × List Char)) :
    matchHeadings ast [] = [] := by
  induction ast with
  | nil => rfl
  | cons h rest ih =>
    obtain ⟨lv, ht⟩ := h
    by_cases hlv : lv ≤ 2
    · simp only [matchHeadings, if_pos hlv]
      have : bestMatch lv ht [] = none := rfl
      rw [this]
      exact ih
    · simp only [matchHeadings, if_neg hlv]
      exact ih

/-- A document none of whose lines is a raw heading has no candidates. -/
theorem headingPositions_none (lines : List (List Char))
    (h : ∀ l ∈ lines, rawHeadingLevel l = none) :
    headingPositions lines = [] := by
  apply List.filterMap_eq_nil_iff.2
  intro p hp
  have h2 : lines[p.1]? = some p.2 := List.mem_enum_iff_getElem?.1 hp
  have h3 : p.2 ∈ lines := by
    rcases List.getElem?_eq_some_iff.1 h2 with ⟨hlt, heq⟩
    exact heq ▸ lines.getElem_mem hlt
  rw [h p.2 h3]
  rfl

/-- C7 counterexample: on a concrete two-line document with no headings
the extractor returns the empty list, and downstream the sidebar
structure is empty — there is no synthetic `Content` entry (the claim
asserts a single such section). -/
theorem C7_counterexample :
    parse_markdown [(1, "hello".data)] noHeadLines = [] ∧
    (create_file_structure "d".data noHeadLines
        (parse_markdown [(1, "hello".data)] noHeadLines)).2 = [] ∧
    (create_file_structure "d".data noHeadLines
        (parse_markdown [(1, "hello".data)] noHeadLines)).2.length ≠ 1 := by
  refine ⟨by decide, by decide, by decide⟩

/-- C7 amended: a document with no heading lines makes the extractor
return the empty list, and downstream processing of that empty list
writes no files and produces an empty sidebar structure (no entry at
all); the synthetic `Content` section only arises when a level-2 heading
precedes every level-1 heading. -/
theorem C7_no_headings (ast : List (Nat × List Char)) (docName : List Char)
    (lines : List (List Char)) (h : ∀ l ∈ lines, rawHeadingLevel l = none) :
    parse_markdown ast lines = [] ∧
    create_file_structure docName lines (parse_markdown ast lines) = ([], []) := by
  have hp : parse_markdown ast lines = [] := by
    unfold parse_markdown
    rw [headingPositions_none lines h, matchHeadings_nil_ps]
    rfl
  exact ⟨hp, by rw [hp]; rfl⟩

/-- Witness for the amended C7 at the concrete no-heading document. -/
theorem C7_no_headings_witness :
    (∀ l ∈ noHeadLines, rawHeadingLevel l = none) ∧
    parse_markdown [] noHeadLines = [] ∧
    create_file_structure "d".data noHeadLines (parse_markdown [] noHeadLines) =
      ([], []) :=
  ⟨by decide, C7_no_headings [] "d".data noHeadLines (by decide)⟩

/-- Witness for C2 at the ten-line `Basics` document. -/
theorem C2_short_section_witness :
    (10 - 0 ≤ TOO_LONG_THRESHOLD) ∧
    flushNav ((Sec.mk 1 "Basics".data 0 10 :: ([] : List Sec)).foldl
        (splitStep "oj".data ojLines) initSplitSt) =
      flushNav initSplitSt ++
        [NavEntry.mk "Basics".data
          (some (mkLink "oj".data
            (heading_to_name "Basics".data initSplitSt.used).1)) []] :=
  ⟨by decide,
   (C2_short_section "oj".data ojLines initSplitSt "Basics".data 0 10 []
      (by decide) (by simp)).2.1 (by decide)⟩

/-- Full specification of the `best_match` fold: a `none` result means no
unclaimed candidate of the right level matches; a `some l` result is a
matching candidate's line and is minimal among all matching candidates
(and no larger than any incoming accumulator). -/
theorem bmFold_spec (lv : Nat) (ht : List Char) :
    ∀ ps : List RawPos, ∀ acc : Option Nat,
      (ps.foldl (bmStep lv ht) acc = none →
        acc = none ∧
          ∀ p ∈ ps, ¬(p.level = lv ∧ lineMatches lv ht p.content = true)) ∧
      (∀ l, ps.foldl (bmStep lv ht) acc = some l →
        (acc = some l ∨ ∃ p ∈ ps,
            (p.level = lv ∧ lineMatches lv ht p.content = true) ∧ p.line = l) ∧
        (∀ p ∈ ps, p.level = lv → lineMatches lv ht p.content = true →
          l ≤ p.line) ∧
        (∀ b, acc = some b → l ≤ b)) := by
  intro ps
  induction ps with
  | nil =>
    intro acc
    refine ⟨fun h => ⟨h, by simp⟩, fun l h => ⟨Or.inl h, by simp, ?_⟩⟩
    intro b hb
    simp only [List.foldl_nil] at h
    rw [h] at hb
    injection hb with hb
    omega
  | cons p ps ih =>
    intro acc
    simp only [List.foldl_cons]
    by_cases hP : p.level = lv ∧ lineMatches lv ht p.content = true
    · have hstep : bmStep lv ht acc p =
          match acc with
          | none => some p.line
          | some b => if p.line < b then some p.line else some b := by
        simp [bmStep, hP]
      constructor
      · intro hnone
        have := (ih (bmStep lv ht acc p)).1 hnone
        rw [hstep] at this
        rcases acc with _ | b
        · simp at this
        · simp only [] at this
          rcases this with ⟨habs, _⟩
          split at habs <;> simp at habs
      · intro l hl
        obtain ⟨b1, b2, b3⟩ := (ih (bmStep lv ht acc p)).2 l hl
        rw [hstep] at b1 b3
        rcases acc with _ | b
        · have hlp : l ≤ p.line := b3 p.line rfl
          refine ⟨?_, ?_, by simp⟩
          · rcases b1 with h | ⟨q, hq, hPq, hql⟩
            · exact Or.inr ⟨p, by simp, hP, Option.some.inj h⟩
            · exact Or.inr ⟨q, by simp [hq], hPq, hql⟩
          · intro q hq hq1 hq2
            rcases List.mem_cons.1 hq with rfl | hq'
            · exact hlp
            · exact b2 q hq' hq1 hq2
        · by_cases hlt : p.line < b
          · simp only [if_pos hlt] at b1 b3
            have hlp : l ≤ p.line := b3 p.line rfl
            refine ⟨?_, ?_, ?_⟩
            · rcases b1 with h | ⟨q, hq, hPq, hql⟩
              · exact Or.inr ⟨p, by simp, hP, Option.some.inj h⟩
              · exact Or.inr ⟨q, by simp [hq], hPq, hql⟩
            · intro q hq hq1 hq2
              rcases List.mem_cons.1 hq with rfl | hq'
              · exact hlp
              · exact b2 q hq' hq1 hq2
            · intro c hc
              injection hc with hc
              omega
          · simp only [if_neg hlt] at b1 b3
            have hlb : l ≤ b := b3 b rfl
            refine ⟨?_, ?_, ?_⟩
            · rcases b1 with h | ⟨q, hq, hPq, hql⟩
              · exact Or.inl h
              · exact Or.inr ⟨q, by simp [hq], hPq, hql⟩
            · intro q hq hq1 hq2
              rcases List.mem_cons.1 hq with rfl | hq'
              · omega
              · exact b2 q hq' hq1 hq2
            · intro c hc
              injection hc with hc
              omega
    · have hstep : bmStep lv ht acc p = acc := by
        simp [bmStep, hP]
      rw [hstep]
      constructor
      · intro hnone
        obtain ⟨h1, h2⟩ := (ih acc).1 hnone
        exact ⟨h1, by
          intro q hq
          rcases List.mem_cons.1 hq with rfl | hq'
          · exact hP
          · exact h2 q hq'⟩
      · intro l hl
        obtain ⟨b1, b2, b3⟩ := (ih acc).2 l hl
        refine ⟨?_, ?_, b3⟩
        · rcases b1 with h | ⟨q, hq, hPq, hql⟩
          · exact Or.inl h
          · exact Or.inr ⟨q, by simp [hq], hPq, hql⟩
        · intro q hq hq1 hq2
          rcases List.mem_cons.1 hq with rfl | hq'
          · exact absurd ⟨hq1, hq2⟩ hP
          · exact b2 q hq' hq1 hq2

/-- Every matched heading's line comes from the candidate pool. -/
theorem matchHeadings_lines_sub :
    ∀ (ast : List (Nat × List Char)) (ps : List RawPos),
    ∀ h ∈ matchHeadings ast ps, ∃ p ∈ ps, h.startLine = p.line := by
  intro ast
  induction ast with
  | nil => intro ps h hh; cases hh
  | cons node rest ih =>
    intro ps h hh
    obtain ⟨lv, ht⟩ := node
    by_cases hlv : lv ≤ 2
    · simp only [matchHeadings, if_pos hlv] at hh
      cases hbm : bestMatch lv ht ps with
      | none => rw [hbm] at hh; exact ih ps h hh
      | some l =>
        rw [hbm] at hh
        rcases List.mem_cons.1 hh with rfl | hh'
        · obtain ⟨b1, _, _⟩ := (bmFold_spec lv ht ps none).2 l hbm
          rcases b1 with habs | ⟨p, hp, _, hpl⟩
          · cases habs
          · exact ⟨p, hp, hpl.symm⟩
        · obtain ⟨p, hp, hpl⟩ := ih _ h hh'
          exact ⟨p, List.mem_of_mem_filter hp, hpl⟩
    · simp only [matchHeadings, if_neg hlv] at hh
      exact ih ps h hh

/-- Matched line numbers are pairwise distinct: a claimed raw line is
deleted from the pool and can never be assigned again. -/
theorem matchHeadings_lines_nodup :
    ∀ (ast : List (Nat × List Char)) (ps : List RawPos),
    ((matchHeadings ast ps).map Hd.startLine).Nodup := by
  intro ast
  induction ast with
  | nil => intro ps; exact List.nodup_nil
  | cons node rest ih =>
    intro ps
    obtain ⟨lv, ht⟩ := node
    by_cases hlv : lv ≤ 2
    · simp only [matchHeadings, if_pos hlv]
      cases hbm : bestMatch lv ht ps with
      | none => exact ih ps
      | some l =>
        simp only [List.map_cons]
        refine List.nodup_cons.2 ⟨?_, ih _⟩
        intro hmem
        obtain ⟨h, hh, hhl⟩ := List.mem_map.1 hmem
        obtain ⟨p, hp, hpl⟩ := matchHeadings_lines_sub _ _ h hh
        have hne : p.line ≠ l := by
          have := List.mem_filter.1 hp
          simpa using this.2
        exact hne (hpl ▸ hhl)
    · simp only [matchHeadings, if_neg hlv]
      exact ih ps

/-- C5: in document order, each AST heading (level `≤ 2`) is assigned the
earliest unclaimed raw heading line of its level whose text contains the
AST text or starts with its 20-character stem (`lineMatches`); a claimed
line is removed from the pool and never reused; a heading with no
matching line is silently dropped from the output. -/
theorem C5_reconciliation :
    (∀ (lv : Nat) (ht : List Char) (rest : List (Nat × List Char))
        (ps : List RawPos) (l : Nat), lv ≤ 2 → bestMatch lv ht ps = some l →
      matchHeadings ((lv, ht) :: rest) ps =
        Hd.mk lv ht l :: matchHeadings rest (ps.filter (fun p => p.line ≠ l)) ∧
      (∃ p ∈ ps, (p.level = lv ∧ lineMatches lv ht p.content = true) ∧
        p.line = l) ∧
      (∀ p ∈ ps, p.level = lv → lineMatches lv ht p.content = true →
        l ≤ p.line)) ∧
    (∀ (lv : Nat) (ht : List Char) (rest : List (Nat × List Char))
        (ps : List RawPos), lv ≤ 2 → bestMatch lv ht ps = none →
      matchHeadings ((lv, ht) :: rest) ps = matchHeadings rest ps) ∧
    (∀ (ast : List (Nat × List Char)) (ps : List RawPos),
      ((matchHeadings ast ps).map Hd.startLine).Nodup) := by
  refine ⟨?_, ?_, matchHeadings_lines_nodup⟩
  · intro lv ht rest ps l hlv hbm
    obtain ⟨b1, b2, _⟩ := (bmFold_spec lv ht ps none).2 l hbm
    refine ⟨?_, ?_, b2⟩
    · simp only [matchHeadings, if_pos hlv, hbm]
    · rcases b1 with h | h
      · cases h
      · exact h
  · intro lv ht rest ps hlv hbm
    simp only [matchHeadings, if_pos hlv, hbm]

/-- Witness for C5 on a one-candidate pool. -/
theorem C5_reconciliation_witness :
    (1 ≤ 2 ∧ bestMatch 1 ['A'] [RawPos.mk 0 1 "# A".data] = some 0) ∧
    matchHeadings [(1, ['A'])] [RawPos.mk 0 1 "# A".data] =
      Hd.mk 1 ['A'] 0 ::
        matchHeadings []
          ([RawPos.mk 0 1 "# A".data].filter (fun p => p.line ≠ 0)) :=
  ⟨⟨by decide, by decide⟩,
   (C5_reconciliation.1 1 ['A'] [] [RawPos.mk 0 1 "# A".data] 0
      (by decide) (by decide)).1⟩

/-- `sectionEnd` lands on the end of the document or on a later heading's
start line. -/
theorem sectionEnd_cases (lv : Nat) (total : Nat) :
    ∀ rest : List Hd, sectionEnd lv rest total = total ∨
      ∃ x ∈ rest, x.level ≤ lv ∧ sectionEnd lv rest total = x.startLine := by
  intro rest
  induction rest with
  | nil => exact Or.inl rfl
  | cons h r ih =>
    by_cases hle : h.level ≤ lv
    · exact Or.inr ⟨h, by simp, hle, by simp [sectionEnd, hle]⟩
    · have hstep : sectionEnd lv (h :: r) total = sectionEnd lv r total := by
        simp [sectionEnd, hle]
      rw [hstep]
      rcases ih with h1 | ⟨x, hx, hxl, hxe⟩
      · exact Or.inl h1
      · exact Or.inr ⟨x, by simp [hx], hxl, hxe⟩

/-- C6: a section's exclusive end line is the start line of the first
following heading of level `≤` its own (`List.find?`), or the document
length when none follows; hence a heading immediately followed by one of
level `≤` its own ends exactly where that one starts, and under sorted,
in-range start lines every produced span is non-empty and stays inside
the document. -/
theorem C6_section_spans :
    (∀ (lv : Nat) (rest : List Hd) (total : Nat),
      sectionEnd lv rest total =
        ((rest.find? (fun h => decide (h.level ≤ lv))).map Hd.startLine).getD
          total) ∧
    (∀ (h h2 : Hd) (rest : List Hd) (total : Nat), h2.level ≤ h.level →
      buildSections (h :: h2 :: rest) total =
        Sec.mk h.level h.text h.startLine h2.startLine ::
          buildSections (h2 :: rest) total) ∧
    (∀ (hs : List Hd) (total : Nat),
      hs.Pairwise (fun a b => a.startLine < b.startLine) →
      (∀ h ∈ hs, h.startLine < total) →
      ∀ sec ∈ buildSections hs total,
        sec.startLine < sec.endLine ∧ sec.endLine ≤ total) := by
  refine ⟨?_, ?_, ?_⟩
  · intro lv rest total
    induction rest with
    | nil => rfl
    | cons h r ih =>
      by_cases hle : h.level ≤ lv
      · simp [sectionEnd, hle, List.find?_cons_of_pos]
      · rw [List.find?_cons_of_neg _ (by simpa using hle)]
        simpa [sectionEnd, hle] using ih
  · intro h h2 rest total hle
    simp [buildSections, sectionEnd, hle]
  · intro hs
    induction hs with
    | nil => intro total _ _ sec hsec; cases hsec
    | cons h rest ih =>
      intro total hpair hrange sec hsec
      rcases List.mem_cons.1 hsec with rfl | hsec'
      · constructor
        · rcases sectionEnd_cases h.level total rest with he | ⟨x, hx, _, he⟩
          · rw [he]; exact hrange h (by simp)
          · rw [he]
            exact (List.pairwise_cons.1 hpair).1 x hx
        · rcases sectionEnd_cases h.level total rest with he | ⟨x, hx, _, he⟩
          · simp [he]
          · rw [he]
            exact Nat.le_of_lt (hrange x (by simp [hx]))
      · exact ih total (List.pairwise_cons.1 hpair).2
          (fun x hx => hrange x (by simp [hx])) sec hsec'

/-- Witness for C6 at a two-heading document skeleton. -/
theorem C6_section_spans_witness :
    ((2 : Nat) ≤ 2 ∧
      buildSections [Hd.mk 2 ['A'] 0, Hd.mk 2 ['B'] 3] 9 =
        Sec.mk 2 ['A'] 0 3 :: buildSections [Hd.mk 2 ['B'] 3] 9) ∧
    ([Hd.mk 2 ['A'] 0, Hd.mk 2 ['B'] 3].Pairwise
        (fun a b => a.startLine < b.startLine) ∧
      ∀ sec ∈ buildSections [Hd.mk 2 ['A'] 0, Hd.mk 2 ['B'] 3] 9,
        sec.startLine < sec.endLine ∧ sec.endLine ≤ 9) :=
  ⟨⟨by decide,
    C6_section_spans.2.1 (Hd.mk 2 ['A'] 0) (Hd.mk 2 ['B'] 3) [] 9 (by decide)⟩,
   by decide,
   C6_section_spans.2.2 [Hd.mk 2 ['A'] 0, Hd.mk 2 ['B'] 3] 9
     (by decide) (by decide)⟩

/-- Each iteration of the section loop appends at most one file, whose
content is the section's extracted span, rewritten for level-2 files. -/
theorem splitStep_files (doc : List Char) (lines : List (List Char)) (st : SplitSt) (sec : Sec) :
    (splitStep doc lines st sec).files = st.files ∨
    (∃ fn, (splitStep doc lines st sec).files =
      st.files ++ [(fn, extractLines lines sec.startLine sec.endLine)]) ∨
    (∃ fn, (splitStep doc lines st sec).files =
      st.files ++ [(fn, rewriteFirstL2 (extractLines lines sec.startLine sec.endLine))]) := by
  by_cases h1 : sec.level = 1
  · by_cases h2 : sec.endLine - sec.startLine > TOO_LONG_THRESHOLD
    · left; simp [splitStep, h1, h2]
    · right; left
      exact ⟨(heading_to_name sec.text st.used).1, by simp [splitStep, h1, h2]⟩
  · by_cases h2 : sec.level = 2
    · cases hn : st.curName with
      | none =>
        right; right
        refine ⟨(heading_to_name sec.text st.used).1, ?_⟩
        simp [splitStep, h1, h2, hn]
      | some x =>
        cases hl : st.curLink with
        | none =>
          right; right
          refine ⟨(heading_to_name sec.text st.used).1, ?_⟩
          simp [splitStep, h1, h2, hn, hl]
        | some l =>
          left
          simp [splitStep, h1, h2, hn, hl]
    · left; simp [splitStep, h1, h2]

/-- Fold invariant: every file accumulated over a section list either was
already present or is the (possibly rewritten) span of a listed section. -/
theorem foldl_files_from_sections (doc : List Char) (lines : List (List Char)) :
    ∀ (sections : List Sec) (st : SplitSt),
    ∀ f ∈ (sections.foldl (splitStep doc lines) st).files,
      f ∈ st.files ∨ ∃ sec ∈ sections,
        f.2 = extractLines lines sec.startLine sec.endLine ∨
        f.2 = rewriteFirstL2 (extractLines lines sec.startLine sec.endLine) := by
  intro sections
  induction sections with
  | nil => intro st f hf; exact Or.inl hf
  | cons sec rest ih =>
    intro st f hf
    rw [List.foldl_cons] at hf
    rcases ih (splitStep doc lines st sec) f hf with hin | ⟨s, hs, hshape⟩
    · rcases splitStep_files doc lines st sec with he | ⟨fn, he⟩ | ⟨fn, he⟩
      · rw [he] at hin; exact Or.inl hin
      · rw [he] at hin
        rcases List.mem_append.1 hin with h | h
        · exact Or.inl h
        · simp only [List.mem_singleton] at h
          exact Or.inr ⟨sec, by simp, by rw [h]; exact Or.inl rfl⟩
      · rw [he] at hin
        rcases List.mem_append.1 hin with h | h
        · exact Or.inl h
        · simp only [List.mem_singleton] at h
          exact Or.inr ⟨sec, by simp, by rw [h]; exact Or.inr rfl⟩
    · exact Or.inr ⟨s, by simp [hs], hshape⟩

/-- Every section produced by `buildSections` starts at a listed heading. -/
theorem buildSections_from_hd :
    ∀ (hs : List Hd) (total : Nat), ∀ sec ∈ buildSections hs total,
      ∃ h ∈ hs, sec.level = h.level ∧ sec.text = h.text ∧
        sec.startLine = h.startLine := by
  intro hs
  induction hs with
  | nil => intro total sec hsec; cases hsec
  | cons h rest ih =>
    intro total sec hsec
    rcases List.mem_cons.1 hsec with rfl | hsec'
    · exact ⟨h, by simp, rfl, rfl, rfl⟩
    · obtain ⟨x, hx, hprop⟩ := ih total sec hsec'
      exact ⟨x, by simp [hx], hprop⟩

/-- C10: every written content file's lines are the extracted span
`[startLine, endLine)` of one of the processed sections (rewritten for
level-2 files); sections start at extracted heading lines, so when every
extracted heading starts at or after `s0`, no file contains any material
from before line `s0` — preamble lines before the first heading reach no
output file. -/
theorem C10_files_within_spans :
    (∀ (doc : List Char) (lines : List (List Char)) (sections : List Sec),
      ∀ f ∈ (create_file_structure doc lines sections).1,
      ∃ sec ∈ sections,
        f.2 = extractLines lines sec.startLine sec.endLine ∨
        f.2 = rewriteFirstL2 (extractLines lines sec.startLine sec.endLine)) ∧
    (∀ (doc : List Char) (lines : List (List Char)) (hs : List Hd)
        (total s0 : Nat), (∀ h ∈ hs, s0 ≤ h.startLine) →
      ∀ f ∈ (create_file_structure doc lines (buildSections hs total)).1,
      ∃ s e, s0 ≤ s ∧
        (f.2 = extractLines lines s e ∨
         f.2 = rewriteFirstL2 (extractLines lines s e))) := by
  have hmain : ∀ (doc : List Char) (lines : List (List Char)) (sections : List Sec),
      ∀ f ∈ (create_file_structure doc lines sections).1,
      ∃ sec ∈ sections,
        f.2 = extractLines lines sec.startLine sec.endLine ∨
        f.2 = rewriteFirstL2 (extractLines lines sec.startLine sec.endLine) := by
    intro doc lines sections f hf
    rcases foldl_files_from_sections doc lines sections initSplitSt f hf with h | h
    · cases h
    · exact h
  refine ⟨hmain, ?_⟩
  intro doc lines hs total s0 hs0 f hf
  obtain ⟨sec, hsec, hshape⟩ := hmain doc lines (buildSections hs total) f hf
  obtain ⟨h, hh, _, _, hstart⟩ := buildSections_from_hd hs total sec hsec
  exact ⟨sec.startLine, sec.endLine, hstart ▸ hs0 h hh, hshape⟩

/-- Witness for C10 on the one-section `Basics` document. -/
theorem C10_files_within_spans_witness :
    (∀ h ∈ [Hd.mk 1 "Basics".data 0], 0 ≤ h.startLine) ∧
    (∀ f ∈ (create_file_structure "oj".data ojLines
        (buildSections [Hd.mk 1 "Basics".data 0] 10)).1,
      ∃ s e, 0 ≤ s ∧
        (f.2 = extractLines ojLines s e ∨
         f.2 = rewriteFirstL2 (extractLines ojLines s e))) :=
  ⟨by decide,
   C10_files_within_spans.2 "oj".data ojLines [Hd.mk 1 "Basics".data 0] 10 0
     (by decide)⟩

/-- Adjacent extracted spans concatenate to the enclosing span. -/
theorem extractLines_append (lines : List (List Char)) (s m e : Nat)
    (h1 : s ≤ m) (h2 : m ≤ e) :
    extractLines lines s m ++ extractLines lines m e = extractLines lines s e := by
  unfold extractLines
  rw [show e - s = (m - s) + (e - m) from by omega, List.take_add, List.drop_drop,
    show s + (m - s) = m from by omega]

/-- A chained span list runs forward. -/
theorem spansChained_le : ∀ (l2s : List Sec) (a e : Nat),
    spansChained l2s a e → a ≤ e := by
  intro l2s
  induction l2s with
  | nil => intro a e h; exact Nat.le_of_eq h
  | cons sec rest ih =>
    intro a e h
    obtain ⟨h1, h2, h3⟩ := h
    calc a = sec.startLine := h1.symm
      _ ≤ sec.endLine := h2
      _ ≤ e := ih _ _ h3

/-- Concatenating the extracted spans of a contiguous section run yields
the extracted enclosing span. -/
theorem chained_flatten (lines : List (List Char)) :
    ∀ (l2s : List Sec) (c0 e : Nat), spansChained l2s c0 e →
    (l2s.map (fun sec => extractLines lines sec.startLine sec.endLine)).flatten =
      extractLines lines c0 e := by
  intro l2s
  induction l2s with
  | nil =>
    intro c0 e h
    have : c0 = e := h
    simp [this, extractLines]
  | cons sec rest ih =>
    intro c0 e h
    obtain ⟨h1, h2, h3⟩ := h
    simp only [List.map_cons, List.flatten_cons, ih _ _ h3]
    rw [← h1]
    exact extractLines_append lines sec.startLine sec.endLine e h2
      (spansChained_le rest _ _ h3)

/-- Folding a run of level-2 sections from an unlinked (long) parent state
appends exactly the per-child rewritten files. -/
theorem foldl_l2_split (doc : List Char) (lines : List (List Char)) :
    ∀ (l2s : List Sec) (st : SplitSt) (x : List Char),
    st.curName = some x → st.curLink = none → (∀ sec ∈ l2s, sec.level = 2) →
    (l2s.foldl (splitStep doc lines) st).files =
        st.files ++ l2FileList lines st.used l2s ∧
    (l2s.foldl (splitStep doc lines) st).curName = some x ∧
    (l2s.foldl (splitStep doc lines) st).curLink = none := by
  intro l2s
  induction l2s with
  | nil => intro st x hn hl _; exact ⟨by simp [l2FileList], hn, hl⟩
  | cons sec rest ih =>
    intro st x hn hl hall
    have h2 : sec.level = 2 := hall sec (by simp)
    have h1 : sec.level ≠ 1 := by omega
    have hstep : splitStep doc lines st sec =
        SplitSt.mk (heading_to_name sec.text st.used).2 (some x)
          (st.curItems ++ [NavItem.mk sec.text
            (mkLink doc (heading_to_name sec.text st.used).1)])
          none
          (st.files ++ [((heading_to_name sec.text st.used).1,
            rewriteFirstL2 (extractLines lines sec.startLine sec.endLine))])
          st.nav := by
      simp [splitStep, h1, h2, hn, hl]
    rw [List.foldl_cons, hstep]
    obtain ⟨hf, hn2, hl2⟩ := ih (SplitSt.mk (heading_to_name sec.text st.used).2
      (some x) (st.curItems ++ [NavItem.mk sec.text
        (mkLink doc (heading_to_name sec.text st.used).1)]) none
      (st.files ++ [((heading_to_name sec.text st.used).1,
        rewriteFirstL2 (extractLines lines sec.startLine sec.endLine))]) st.nav)
      x rfl rfl (fun q hq => hall q (by simp [hq]))
    refine ⟨?_, hn2, hl2⟩
    rw [hf]
    simp [l2FileList, List.append_assoc]

/-- The rewrite leaves a file with no `'## '` line unchanged. -/
theorem rewriteFirstL2_no_hit :
    ∀ ls : List (List Char),
    (∀ x ∈ ls, listStartsWith ('#' :: '#' :: ' ' :: []) x = false) →
    rewriteFirstL2 ls = ls := by
  intro ls
  induction ls with
  | nil => intro _; rfl
  | cons l rest ih =>
    intro h
    have hl : listStartsWith ('#' :: '#' :: ' ' :: []) l = false := h l (by simp)
    simp only [rewriteFirstL2, hl]
    simp only [Bool.false_eq_true, if_false]
    rw [ih (fun q hq => h q (by simp [hq]))]

/-- The rewrite strips one hash off exactly the first `'## '` line. -/
theorem rewriteFirstL2_hit :
    ∀ (pre : List (List Char)) (l : List Char) (post : List (List Char)),
    (∀ x ∈ pre, listStartsWith ('#' :: '#' :: ' ' :: []) x = false) →
    listStartsWith ('#' :: '#' :: ' ' :: []) l = true →
    rewriteFirstL2 (pre ++ l :: post) = pre ++ l.drop 1 :: post := by
  intro pre
  induction pre with
  | nil =>
    intro l post _ hl
    simp [rewriteFirstL2, hl]
  | cons p rest ih =>
    intro l post hpre hl
    have hp : listStartsWith ('#' :: '#' :: ' ' :: []) p = false := hpre p (by simp)
    simp only [List.cons_append, rewriteFirstL2, hp]
    simp only [Bool.false_eq_true, if_false, List.append_eq]
    rw [ih l post (fun q hq => hpre q (by simp [hq])) hl]

/-- The file contents of a level-2 run are the rewritten child spans. -/
theorem l2FileList_map_snd (lines : List (List Char)) :
    ∀ (l2s : List Sec) (used : List (List Char)),
    (l2FileList lines used l2s).map Prod.snd =
      l2s.map (fun sec =>
        rewriteFirstL2 (extractLines lines sec.startLine sec.endLine)) := by
  intro l2s
  induction l2s with
  | nil => intro used; rfl
  | cons sec rest ih =>
    intro used
    simp only [l2FileList, List.map_cons, ih]

/-- C1 amended: for a long level-1 section the splitter writes exactly one
file per level-2 child, in document order, each child's span with one
hash removed from its first `'## '` line (no other line changes); when the
child spans tile `[c0, e)` — `c0` the first child's start, `e` the
parent's end — concatenating the original child spans reproduces
`lines[c0:e]`: the parent's content from the first child on.  The
parent's own heading line and any lines before the first child (which
exist, since the parent starts at its heading line before `c0`) are in no
file, so the concatenation reproduces only this suffix of the section,
not the whole section. -/
theorem C1_long_section_roundtrip :
    (∀ (doc : List Char) (lines : List (List Char)) (st : SplitSt)
        (t : List Char) (s e : Nat) (l2s : List Sec) (c0 : Nat),
      e - s > TOO_LONG_THRESHOLD → (∀ sec ∈ l2s, sec.level = 2) →
      spansChained l2s c0 e →
      ((Sec.mk 1 t s e :: l2s).foldl (splitStep doc lines) st).files =
        st.files ++ l2FileList lines st.used l2s ∧
      (l2FileList lines st.used l2s).map Prod.snd =
        l2s.map (fun sec =>
          rewriteFirstL2 (extractLines lines sec.startLine sec.endLine)) ∧
      (l2s.map (fun sec =>
          extractLines lines sec.startLine sec.endLine)).flatten =
        extractLines lines c0 e) ∧
    (∀ (pre : List (List Char)) (l : List Char) (post : List (List Char)),
      (∀ x ∈ pre, listStartsWith ('#' :: '#' :: ' ' :: []) x = false) →
      listStartsWith ('#' :: '#' :: ' ' :: []) l = true →
      rewriteFirstL2 (pre ++ l :: post) = pre ++ l.drop 1 :: post) ∧
    (∀ ls : List (List Char),
      (∀ x ∈ ls, listStartsWith ('#' :: '#' :: ' ' :: []) x = false) →
      rewriteFirstL2 ls = ls) := by
  refine ⟨?_, rewriteFirstL2_hit, rewriteFirstL2_no_hit⟩
  intro doc lines st t s e l2s c0 hlong hl2 hchain
  have hstep : splitStep doc lines st (Sec.mk 1 t s e) =
      SplitSt.mk st.used (some t) [] none st.files (flushNav st) := by
    simp [splitStep, hlong]
  rw [List.foldl_cons, hstep]
  obtain ⟨hf, _, _⟩ := foldl_l2_split doc lines l2s
    (SplitSt.mk st.used (some t) [] none st.files (flushNav st)) t rfl rfl hl2
  exact ⟨hf, l2FileList_map_snd lines l2s st.used, chained_flatten lines l2s c0 e hchain⟩

/-- Witness for the amended C1 at the concrete 503-line document. -/
theorem C1_long_section_roundtrip_witness :
    (503 - 0 > TOO_LONG_THRESHOLD) ∧
    ((Sec.mk 1 ['A'] 0 503 :: [Sec.mk 2 ['B'] 501 503]).foldl
        (splitStep "d".data longDocLines) initSplitSt).files =
      initSplitSt.files ++
        l2FileList longDocLines initSplitSt.used [Sec.mk 2 ['B'] 501 503] ∧
    ([Sec.mk 2 ['B'] 501 503].map (fun sec =>
        extractLines longDocLines sec.startLine sec.endLine)).flatten =
      extractLines longDocLines 501 503 :=
  ⟨by decide,
   (C1_long_section_roundtrip.1 "d".data longDocLines initSplitSt ['A'] 0 503
      [Sec.mk 2 ['B'] 501 503] 501 (by decide) (by decide)
      ⟨rfl, by decide, rfl⟩).1,
   (C1_long_section_roundtrip.1 "d".data longDocLines initSplitSt ['A'] 0 503
      [Sec.mk 2 ['B'] 501 503] 501 (by decide) (by decide)
      ⟨rfl, by decide, rfl⟩).2.2⟩

/-- C1 counterexample: in the 503-line document the long level-1 section
spans `[0, 503)` but its only level-2 child spans `[501, 503)`; the single
written file is the child's two lines with the marker rewritten, so the
restored concatenation (two lines) cannot reproduce the 503-line level-1
section content — the heading line `# A` and the 500 intro lines are lost. -/
theorem C1_roundtrip_counterexample :
    (503 - 0 > TOO_LONG_THRESHOLD) ∧
    parse_markdown [(1, ['A']), (2, ['B'])] longDocLines = longDocSecs ∧
    (create_file_structure "d".data longDocLines longDocSecs).1 =
      [("b".data, ["# B".data, ['y']])] ∧
    rewriteFirstL2 ["## B".data, ['y']] = ["# B".data, ['y']] ∧
    ["## B".data, ['y']] ≠ extractLines longDocLines 0 503 := by
  refine ⟨by decide, by decide, by decide, by decide, ?_⟩
  have hlen : (extractLines longDocLines 0 503).length = 503 := by decide
  intro h
  rw [← h] at hlen
  simp at hlen

/-- The aggregated structures do not depend on the filesystem state. -/
theorem splitFold_structs (env : List Char → Option (List Char))
    (ast : List Char → List (Nat × List Char)) :
    ∀ (names : List (List Char)) (s : List (List Char × List NavEntry))
      (w w' : World),
    (names.foldl (splitStepDoc env ast) (s, w)).1 =
      (names.foldl (splitStepDoc env ast) (s, w')).1 := by
  intro names
  induction names with
  | nil => intro s w w'; rfl
  | cons m rest ih =>
    intro s w w'
    simp only [List.foldl_cons]
    by_cases hv : validName m = true
    · cases he : env m with
      | none => simp only [splitStepDoc, if_pos hv, he]; exact ih s _ _
      | some c => simp only [splitStepDoc, if_pos hv, he]; exact ih _ _ _
    · simp only [splitStepDoc, if_neg hv]; exact ih s _ _

/-- The fold never touches the config, and its effect on the directory
map is: a fresh rebuild for every valid name with a present source that
occurs in the list, and no change anywhere else. -/
theorem splitFold_world (env : List Char → Option (List Char))
    (ast : List Char → List (Nat × List Char)) :
    ∀ (names : List (List Char)) (s : List (List Char × List NavEntry))
      (w : World),
    (names.foldl (splitStepDoc env ast) (s, w)).2.config = w.config ∧
    ∀ n : List Char,
      (names.foldl (splitStepDoc env ast) (s, w)).2.docs n =
        match env n with
        | some c =>
          if validName n = true ∧ n ∈ names then some (freshDir ast n c)
          else w.docs n
        | none => w.docs n := by
  intro names
  induction names with
  | nil =>
    intro s w
    refine ⟨rfl, fun n => ?_⟩
    cases env n with
    | none => rfl
    | some c => simp
  | cons m rest ih =>
    intro s w
    simp only [List.foldl_cons]
    by_cases hv : validName m = true
    · cases he : env m with
      | none =>
        simp only [splitStepDoc, if_pos hv, he]
        obtain ⟨hc, hd⟩ := ih s w
        refine ⟨hc, fun n => ?_⟩
        rw [hd n]
        cases hen : env n with
        | none => rfl
        | some c =>
          simp only []
          by_cases hmem : validName n = true ∧ n ∈ rest
          · rw [if_pos hmem, if_pos ⟨hmem.1, List.mem_cons_of_mem _ hmem.2⟩]
          · rw [if_neg hmem]
            by_cases hall : validName n = true ∧ n ∈ m :: rest
            · have hnm : n = m := by
                rcases List.mem_cons.1 hall.2 with h | h
                · exact h
                · exact absurd ⟨hall.1, h⟩ hmem
              rw [hnm] at hen
              rw [hen] at he
              cases he
            · rw [if_neg hall]
      | some cm =>
        simp only [splitStepDoc, if_pos hv, he]
        obtain ⟨hc, hd⟩ := ih (updAssoc s m (docNav ast m cm))
          (World.mk (updDocs w.docs m (freshDir ast m cm)) w.config)
        refine ⟨hc, fun n => ?_⟩
        rw [hd n]
        cases hen : env n with
        | none =>
          simp only [updDocs]
          have hnm : n ≠ m := by
            intro h
            rw [h, he] at hen
            cases hen
          rw [if_neg hnm]
        | some c =>
          simp only [updDocs]
          by_cases hmem : validName n = true ∧ n ∈ rest
          · rw [if_pos hmem, if_pos ⟨hmem.1, List.mem_cons_of_mem _ hmem.2⟩]
          · rw [if_neg hmem]
            by_cases hall : validName n = true ∧ n ∈ m :: rest
            · have hnm : n = m := by
                rcases List.mem_cons.1 hall.2 with h | h
                · exact h
                · exact absurd ⟨hall.1, h⟩ hmem
              subst hnm
              rw [if_pos rfl, if_pos hall]
              rw [he] at hen
              cases hen
              rfl
            · rw [if_neg hall]
              have hnm : n ≠ m := by
                intro h
                subst h
                exact hall ⟨hv, by simp⟩
              rw [if_neg hnm]
    · simp only [splitStepDoc, if_neg hv]
      obtain ⟨hc, hd⟩ := ih s w
      refine ⟨hc, fun n => ?_⟩
      rw [hd n]
      cases hen : env n with
      | none => rfl
      | some c =>
        simp only []
        by_cases hmem : validName n = true ∧ n ∈ rest
        · rw [if_pos hmem, if_pos ⟨hmem.1, List.mem_cons_of_mem _ hmem.2⟩]
        · rw [if_neg hmem]
          by_cases hall : validName n = true ∧ n ∈ m :: rest
          · have hnm : n = m := by
              rcases List.mem_cons.1 hall.2 with h | h
              · exact h
              · exact absurd ⟨hall.1, h⟩ hmem
            subst hnm
            exact absurd hall.1 hv
          · rw [if_neg hall]

/-- Dict assignment never empties the structure map. -/
theorem updAssoc_ne_nil (l : List (List Char × List NavEntry)) (k : List Char)
    (v : List NavEntry) : updAssoc l k v ≠ [] := by
  unfold updAssoc
  by_cases h : l.any (fun p => p.1 = k)
  · rw [if_pos h]
    intro hmap
    rw [List.map_eq_nil_iff] at hmap
    subst hmap
    simp at h
  · rw [if_neg h]
    simp

/-- Once some structure has been recorded, the fold keeps it non-empty. -/
theorem splitFold_ne_nil (env : List Char → Option (List Char))
    (ast : List Char → List (Nat × List Char)) :
    ∀ (names : List (List Char)) (s : List (List Char × List NavEntry))
      (w : World), s ≠ [] →
    (names.foldl (splitStepDoc env ast) (s, w)).1 ≠ [] := by
  intro names
  induction names with
  | nil => intro s w h; exact h
  | cons m rest ih =>
    intro s w h
    simp only [List.foldl_cons]
    by_cases hv : validName m = true
    · cases he : env m with
      | none => simp only [splitStepDoc, if_pos hv, he]; exact ih s w h
      | some c =>
        simp only [splitStepDoc, if_pos hv, he]
        exact ih _ _ (updAssoc_ne_nil s m (docNav ast m c))
    · simp only [splitStepDoc, if_neg hv]; exact ih s w h

/-- If the whole fold records no structure, no document was processed and
the world is untouched. -/
theorem splitFold_nil_world (env : List Char → Option (List Char))
    (ast : List Char → List (Nat × List Char)) :
    ∀ (names : List (List Char)) (w : World),
    (names.foldl (splitStepDoc env ast) ([], w)).1 = [] →
    (names.foldl (splitStepDoc env ast) ([], w)).2 = w := by
  intro names
  induction names with
  | nil => intro w _; rfl
  | cons m rest ih =>
    intro w hnil
    simp only [List.foldl_cons] at hnil ⊢
    by_cases hv : validName m = true
    · cases he : env m with
      | none =>
        simp only [splitStepDoc, if_pos hv, he] at hnil ⊢
        exact ih w hnil
      | some c =>
        simp only [splitStepDoc, if_pos hv, he] at hnil
        exact absurd hnil
          (splitFold_ne_nil env ast rest _ _ (updAssoc_ne_nil [] m (docNav ast m c)))
    · simp only [splitStepDoc, if_neg hv] at hnil ⊢
      exact ih w hnil

/-- `split` changes the directory map exactly as the fold does. -/
theorem split_docs_eq (env : List Char → Option (List Char))
    (ast : List Char → List (Nat × List Char)) (template : List Char)
    (names : List (List Char)) (w : World) :
    (split env ast template names w).docs =
      (names.foldl (splitStepDoc env ast) ([], w)).2.docs := by
  unfold split
  simp only []
  split <;> rfl

/-- C8: a requested name failing charset validation and a name whose
source file is absent are both skipped (their directory entry is
untouched, no files appear for them), while every remaining valid,
present document is still fully processed: its directory is rebuilt from
its own source regardless of the other names. -/
theorem C8_per_document_isolation :
    (∀ (env : List Char → Option (List Char))
        (ast : List Char → List (Nat × List Char)) (template : List Char)
        (names : List (List Char)) (w : World) (m : List Char),
      validName m = false →
      (split env ast template names w).docs m = w.docs m) ∧
    (∀ (env : List Char → Option (List Char))
        (ast : List Char → List (Nat × List Char)) (template : List Char)
        (names : List (List Char)) (w : World) (m : List Char),
      env m = none →
      (split env ast template names w).docs m = w.docs m) ∧
    (∀ (env : List Char → Option (List Char))
        (ast : List Char → List (Nat × List Char)) (template : List Char)
        (names : List (List Char)) (w : World) (d c : List Char),
      d ∈ names → validName d = true → env d = some c →
      (split env ast template names w).docs d = some (freshDir ast d c)) := by
  refine ⟨?_, ?_, ?_⟩
  · intro env ast template names w m hv
    rw [split_docs_eq, (splitFold_world env ast names [] w).2 m]
    cases he : env m with
    | none => rfl
    | some c =>
      simp only []
      rw [if_neg (by simp [hv])]
  · intro env ast template names w m he
    rw [split_docs_eq, (splitFold_world env ast names [] w).2 m, he]
  · intro env ast template names w d c hd hv he
    rw [split_docs_eq, (splitFold_world env ast names [] w).2 d, he]
    simp only []
    rw [if_pos ⟨hv, hd⟩]

/-- Witness for C8: one invalid name, one missing name, one processed
document in the same run. -/
theorem C8_per_document_isolation_witness :
    (validName "bad name".data = false ∧
      (split wEnv wAst [] ["bad name".data, "ok".data] w0).docs "bad name".data =
        w0.docs "bad name".data) ∧
    (wEnv "miss".data = none ∧
      (split wEnv wAst [] ["bad name".data, "ok".data] w0).docs "miss".data =
        w0.docs "miss".data) ∧
    ("ok".data ∈ ["bad name".data, "ok".data] ∧ validName "ok".data = true ∧
      wEnv "ok".data = some wContent ∧
      (split wEnv wAst [] ["bad name".data, "ok".data] w0).docs "ok".data =
        some (freshDir wAst "ok".data wContent)) :=
  ⟨⟨by decide,
    C8_per_document_isolation.1 wEnv wAst [] ["bad name".data, "ok".data] w0
      "bad name".data (by decide)⟩,
   ⟨by decide,
    C8_per_document_isolation.2.1 wEnv wAst [] ["bad name".data, "ok".data] w0
      "miss".data (by decide)⟩,
   by decide, by decide, by decide,
   C8_per_document_isolation.2.2 wEnv wAst [] ["bad name".data, "ok".data] w0
     "ok".data wContent (by decide) (by decide) (by decide)⟩

/-- C9: running the pipeline twice over the same sources and the same
ordered name list yields the same filesystem slice as running it once —
every processed directory is rebuilt to the same bytes from the sources
alone, untouched entries keep their value, and the regenerated
configuration fragment is identical. -/
theorem C9_rebuild_idempotent (env : List Char → Option (List Char))
    (ast : List Char → List (Nat × List Char)) (template : List Char)
    (names : List (List Char)) (w : World) :
    split env ast template names (split env ast template names w) =
      split env ast template names w := by
  by_cases hnil : (names.foldl (splitStepDoc env ast) ([], w)).1 = []
  · have hw : split env ast template names w = w := by
      have h0 : split env ast template names w =
          if (names.foldl (splitStepDoc env ast) ([], w)).1.isEmpty = true
          then (names.foldl (splitStepDoc env ast) ([], w)).2
          else World.mk (names.foldl (splitStepDoc env ast) ([], w)).2.docs
            (some (update_config_file template (generate_sidebar_config
              (names.foldl (splitStepDoc env ast) ([], w)).1))) := rfl
      rw [h0, if_pos (by simpa using hnil)]
      exact splitFold_nil_world env ast names w hnil
    rw [hw]
    exact hw
  · obtain ⟨W1, hW1⟩ : ∃ W1, split env ast template names w = W1 := ⟨_, rfl⟩
    have hcfg : W1 =
        World.mk (names.foldl (splitStepDoc env ast) ([], w)).2.docs
          (some (update_config_file template (generate_sidebar_config
            (names.foldl (splitStepDoc env ast) ([], w)).1))) := by
      rw [← hW1]
      have h0 : split env ast template names w =
          if (names.foldl (splitStepDoc env ast) ([], w)).1.isEmpty = true
          then (names.foldl (splitStepDoc env ast) ([], w)).2
          else World.mk (names.foldl (splitStepDoc env ast) ([], w)).2.docs
            (some (update_config_file template (generate_sidebar_config
              (names.foldl (splitStepDoc env ast) ([], w)).1))) := rfl
      rw [h0, if_neg (by simpa using hnil)]
    have hs2 : (names.foldl (splitStepDoc env ast) ([], W1)).1 =
        (names.foldl (splitStepDoc env ast) ([], w)).1 :=
      splitFold_structs env ast names [] W1 w
    have hdocs1 : W1.docs =
        (names.foldl (splitStepDoc env ast) ([], w)).2.docs := by
      rw [hcfg]
    have hdocs : (names.foldl (splitStepDoc env ast) ([], W1)).2.docs =
        (names.foldl (splitStepDoc env ast) ([], w)).2.docs := by
      funext n
      rw [(splitFold_world env ast names [] W1).2 n,
        (splitFold_world env ast names [] w).2 n]
      cases he : env n with
      | none =>
        rw [hdocs1, (splitFold_world env ast names [] w).2 n, he]
      | some c =>
        simp only []
        by_cases hcond : validName n = true ∧ n ∈ names
        · rw [if_pos hcond, if_pos hcond]
        · rw [if_neg hcond, if_neg hcond, hdocs1,
            (splitFold_world env ast names [] w).2 n, he]
          simp only []
          rw [if_neg hcond]
    rw [hW1]
    have hunfold : split env ast template names W1 =
        if (names.foldl (splitStepDoc env ast) ([], W1)).1.isEmpty = true
        then (names.foldl (splitStepDoc env ast) ([], W1)).2
        else World.mk (names.foldl (splitStepDoc env ast) ([], W1)).2.docs
          (some (update_config_file template (generate_sidebar_config
            (names.foldl (splitStepDoc env ast) ([], W1)).1))) := rfl
    rw [hunfold, if_neg (by rw [hs2]; simpa using hnil), hdocs, hs2]
    exact hcfg.symm

/-- C2 counterexample: a short level-1 section whose extracted heading
text is empty (a bare `'# '` line, which the raw scan accepts and which
an empty AST heading text matches).  Its single file is written under the
fallback slug, but Python's `if current_l1_name:` is falsy on the empty
string, so the section gets no sidebar entry at all — the claim's
unconditional "its NavEntry has a link … and an empty items list" fails
at this input. -/
theorem C2_short_empty_text_counterexample :
    (2 - 0 ≤ TOO_LONG_THRESHOLD) ∧
    parse_markdown [(1, ([] : List Char))] ["# ".data, ['x']] =
      [Sec.mk 1 [] 0 2] ∧
    (create_file_structure "oj".data ["# ".data, ['x']]
        [Sec.mk 1 [] 0 2]).1 =
      [("unnamed".data, ["# ".data, ['x']])] ∧
    (create_file_structure "oj".data ["# ".data, ['x']]
        [Sec.mk 1 [] 0 2]).2 = [] ∧
    (create_file_structure "oj".data ["# ".data, ['x']]
        [Sec.mk 1 [] 0 2]).2.length ≠ 1 := by
  refine ⟨by decide, by decide, by decide, by decide, by decide⟩
